import Mathlib

/-!
Verification of the blog content-loading and markdown image-rewriting
pipeline of a Next.js blog repository.

The embedded functions follow the TypeScript source:
* `transformImgSrc` (remark plugin rewriting image URLs), and
* `getAllPostSlugs`, `getPost`, `getPosts` (the content loader built on
  `fs/promises` and `gray-matter`).

The file system is modelled as an explicit `Store` (the directory listing of
the content root plus the contents of each `public/blogs/<slug>/index.md`).
Asynchronous fallible reads are modelled with `Except FsError`.  The
`gray-matter` front-matter parser and the JavaScript `Date.parse` builtin are
third-party code not present in the repository; they are modelled from the
spec, as documented at their definitions.
-/

/-! ## Character and line utilities (kernel-reducible replacements for
`String.splitOn`-style operations used by the models) -/

/-- Split a character list at newline characters into lines. -/
def splitLinesList : List Char → List (List Char)
  | [] => [[]]
  | c :: cs =>
    if c = '\n' then [] :: splitLinesList cs
    else
      match splitLinesList cs with
      | [] => [[c]]
      | l :: ls => (c :: l) :: ls

/-- Join lines with newline characters; inverse of `splitLinesList`. -/
def joinLinesList : List (List Char) → List Char
  | [] => []
  | [l] => l
  | l :: l₂ :: ls => l ++ '\n' :: joinLinesList (l₂ :: ls)

/-- Split a string into its lines (the model of `s.split('\n')`). -/
def splitLines (s : String) : List String :=
  (splitLinesList s.toList).map String.mk

/-- Join a list of lines with newlines. -/
def joinLines (ls : List String) : String :=
  String.mk (joinLinesList (ls.map String.toList))

/-- Drop leading space characters. -/
def dropSpaces : List Char → List Char
  | [] => []
  | c :: cs => if c = ' ' then dropSpaces cs else c :: cs

/-- Trim space characters from both ends. -/
def trimSpaces (cs : List Char) : List Char :=
  ((dropSpaces ((dropSpaces cs).reverse)).reverse)

/-- Strip one pair of surrounding double quotes, if present. -/
def stripQuotes (cs : List Char) : List Char :=
  match cs with
  | '"' :: rest =>
    match rest.reverse with
    | '"' :: mid => mid.reverse
    | _ => cs
  | _ => cs

/-- Split a character list at the first colon, if any. -/
def splitAtColon : List Char → Option (List Char × List Char)
  | [] => none
  | c :: cs =>
    if c = ':' then some ([], cs)
    else
      match splitAtColon cs with
      | none => none
      | some (k, v) => some (c :: k, v)

/-! ## Front-matter parsing (model of the `gray-matter` dependency) -/

/-- Modelled from the spec: one line of the front-matter mapping, a scalar
`key: value` entry with string values, optionally double-quoted (the spec's
"mapping of string keys to scalar string values").  Lines without a colon or
with an empty key carry no entry. -/
def parseYamlLine (line : String) : Option (String × String) :=
  match splitAtColon line.toList with
  | none => none
  | some (k, v) =>
    let key := String.mk (trimSpaces k)
    let val := String.mk (stripQuotes (trimSpaces v))
    if key = "" then none else some (key, val)

/-- The result of front-matter extraction: the metadata mapping and the body
with the front-matter block stripped (the `{data, content}` shape returned by
`gray-matter`). -/
structure GrayMatterFile where
  data : List (String × String)
  content : String
deriving DecidableEq, Repr

/-- Split the lines after an opening delimiter at the first closing
`---` line: returns the front-matter lines and the body lines. -/
def splitAtCloseDelim : List String → Option (List String × List String)
  | [] => none
  | l :: ls =>
    if l = "---" then some ([], ls)
    else
      match splitAtCloseDelim ls with
      | none => none
      | some (fm, body) => some (l :: fm, body)

/-- Extraction once the opening delimiter has been recognised: find the
closing `---` line; a document with no closing delimiter is returned whole. -/
def matterClose (s : String) (rest : List String) : GrayMatterFile :=
  match splitAtCloseDelim rest with
  | some (fmLines, bodyLines) =>
    { data := fmLines.filterMap parseYamlLine
      content := joinLines bodyLines }
  | none => { data := [], content := s }

/-- Extraction on the document's line list: the block is recognised only when
the first line is exactly the delimiter. -/
def matterLines (s : String) : List String → GrayMatterFile
  | [] => { data := [], content := s }
  | first :: rest =>
    if first = "---" then matterClose s rest else { data := [], content := s }

/-- Modelled from the spec: the `gray-matter` dependency, which is not part of
this repository.  Per the spec, each document begins with a delimited
front-matter block (a `---` line, key/value metadata lines, a closing `---`
line) followed by the markdown body; a document without such a block has an
empty metadata mapping and is returned whole as content. -/
def matter (s : String) : GrayMatterFile :=
  matterLines s (splitLines s)

/-- A document in the storage format the spec describes: an opening `---`
line, the front-matter lines, a closing `---` line, then the body. -/
def mkDoc (fmLines : List String) (body : String) : String :=
  joinLines ("---" :: fmLines ++ ["---"]) ++ "\n" ++ body

/-- A well-formed front-matter line: a single line that is not itself the
closing delimiter. -/
def lineWf (l : String) : Prop :=
  '\n' ∉ l.toList ∧ l ≠ "---"

instance (l : String) : Decidable (lineWf l) :=
  decidable_of_iff ('\n' ∉ l.toList ∧ l ≠ "---") Iff.rfl

/-! ## The file-system store -/

deriving instance DecidableEq for Except

/-- One entry of `readdir(postsDirectory, { withFileTypes: true })`:
a name together with the result of `isDirectory()`. -/
structure DirEntry where
  name : String
  isDirectory : Bool
deriving DecidableEq, Repr

/-- A Node `fs` error: `ENOENT` is the distinguished "no such file or
directory" error raised by `readFile`/`readdir` on a missing path; other
storage failures (permissions, I/O) are separate. -/
inductive FsError where
  | noFileOrDirectory (path : String)
  | permissionDenied (path : String)
  | ioFailure (msg : String)
deriving DecidableEq, Repr

/-- The content store: the directory listing of the content root
`public/blogs` and, for each slug, the contents of
`public/blogs/<slug>/index.md` when that file exists. -/
structure Store where
  rootEntries : List DirEntry
  files : List (String × String)
deriving DecidableEq, Repr

/-- Model of `readFile(path.join(postsDirectory, slug, 'index.md'), 'utf8')`:
returns the file contents, or rejects with `ENOENT` when the path has no
file. -/
def readIndexMd (s : Store) (slug : String) : Except FsError String :=
  match List.lookup slug s.files with
  | some contents => Except.ok contents
  | none => Except.error
      (FsError.noFileOrDirectory ("public/blogs/" ++ slug ++ "/index.md"))

/-! ## The content loader (`getAllPostSlugs`, `getPost`, `getPosts`) -/

/-- The `{ slug }` records returned by `getAllPostSlugs`. -/
structure SlugEntry where
  slug : String
deriving DecidableEq, Repr

/-- The function `getAllPostSlugs`: filter the root directory listing to directories and
wrap each name as `{ slug: name }`. -/
def getAllPostSlugs (s : Store) : List SlugEntry :=
  ((s.rootEntries.filter fun e => e.isDirectory).map fun e => ⟨e.name⟩)

/-- Post metadata as produced by `getPosts`:
`{ slug, title: data.title, spoiler: data.spoiler, date: data.date }`.
A field is `none` when the front-matter lacks the key (JS `undefined`). -/
structure BlogPost where
  slug : String
  title : Option String
  spoiler : Option String
  date : Option String
deriving DecidableEq, Repr

/-- A post with its markdown body, as returned by `getPost`. -/
structure BlogPostWithContent where
  slug : String
  content : String
  title : Option String
  spoiler : Option String
  date : Option String
deriving DecidableEq, Repr

/-- The metadata projection of a full post. -/
def BlogPostWithContent.toMeta (p : BlogPostWithContent) : BlogPost :=
  ⟨p.slug, p.title, p.spoiler, p.date⟩

/-- The function `getPost({slug})`: read `public/blogs/<slug>/index.md` (propagating the
read error), parse it with `matter`, and combine the data with the slug and
the content. -/
def getPost (s : Store) (slug : String) : Except FsError BlogPostWithContent :=
  match readIndexMd s slug with
  | Except.error e => Except.error e
  | Except.ok fileContents =>
    let m := matter fileContents
    Except.ok
      { slug := slug
        content := m.content
        title := m.data.lookup "title"
        spoiler := m.data.lookup "spoiler"
        date := m.data.lookup "date" }

/-- The metadata record `getPosts` builds from a slug and the contents of its
`index.md` (the body of the closure on line 67 of the source). -/
def postMetaOfFile (slug fileContent : String) : BlogPost :=
  let m := matter fileContent
  { slug := slug
    title := m.data.lookup "title"
    spoiler := m.data.lookup "spoiler"
    date := m.data.lookup "date" }

/-! ## `Date.parse` and the sort comparator -/

/-- Numeric value of a digit character. -/
def digitVal (c : Char) : Int :=
  Int.ofNat (c.toNat - 48)

/-- Modelled from the spec: the JavaScript `Date.parse` builtin (not part of
this repository) restricted to the spec's "ISO-like date" strings
`YYYY-MM-DD`.  A parseable date yields a number that orders dates
chronologically (the model uses `y*10000 + m*100 + d`, order-isomorphic to the
epoch timestamp on date-only strings); anything else is `NaN`, modelled as
`none`.  A missing date field (`undefined`) also parses to `NaN`. -/
def dateParse : Option String → Option Int
  | none => none
  | some s =>
    match s.toList with
    | [y1, y2, y3, y4, '-', m1, m2, '-', d1, d2] =>
      if (y1.isDigit && y2.isDigit && y3.isDigit && y4.isDigit &&
          m1.isDigit && m2.isDigit && d1.isDigit && d2.isDigit) then
        let month := 10 * digitVal m1 + digitVal m2
        let day := 10 * digitVal d1 + digitVal d2
        if 1 ≤ month && month ≤ 12 && 1 ≤ day && day ≤ 31 then
          some ((1000 * digitVal y1 + 100 * digitVal y2 +
                 10 * digitVal y3 + digitVal y4) * 10000 + month * 100 + day)
        else none
      else none
    | _ => none

/-- JavaScript `<` on numbers that may be `NaN`: any comparison against
`NaN` is false. -/
def jsNumLt : Option Int → Option Int → Bool
  | some a, some b => a < b
  | _, _ => false

/-- The comparator passed to `posts.sort` on line 75 of the source:
`Date.parse(a.date) < Date.parse(b.date) ? 1 : -1`. -/
def postCompare (a b : BlogPost) : Int :=
  if jsNumLt (dateParse a.date) (dateParse b.date) then 1 else -1

/-- The "keep `a` no later than `b`" relation induced by the comparator:
a comparison sort places `a` before `b` exactly when the comparator does not
return a positive number on `(a, b)`. -/
def postLe (a b : BlogPost) : Bool :=
  decide (postCompare a b ≤ 0)

/-- The ordering the spec asserts on adjacent output posts: both dates parse
and the first is at least the second. -/
def dateGe (a b : BlogPost) : Prop :=
  ∃ x y : Int, dateParse a.date = some x ∧ dateParse b.date = some y ∧ y ≤ x

/-- Stable binary-insertion into a sorted list: the inserted element moves
past exactly the elements the comparator does not order before it. -/
def insertCmp (le : α → α → Bool) (x : α) : List α → List α
  | [] => [x]
  | y :: ys => if le y x then y :: insertCmp le x ys else x :: y :: ys

/-- Model of `Array.prototype.sort` with a comparator: a stable comparison
sort that places `a` before `b` when the comparator on `(a, b)` is not
positive.  (The engine's algorithm is unspecified for comparators that are
not consistent; any comparison sort respecting the comparator is a faithful
model, and all of them produce output ordered by `le` whenever `le` is total
and transitive on the elements at hand.) -/
def sortCmp (le : α → α → Bool) : List α → List α
  | [] => []
  | x :: xs => insertCmp le x (sortCmp le xs)

/-- Model of `Promise.all` over fallible reads: all results in input order, or the
failure of a failing element. -/
def mapExcept (f : α → Except ε β) : List α → Except ε (List β)
  | [] => Except.ok []
  | a :: as =>
    match f a with
    | Except.error e => Except.error e
    | Except.ok b =>
      match mapExcept f as with
      | Except.error e => Except.error e
      | Except.ok bs => Except.ok (b :: bs)

/-- The function `getPosts`: list the slugs, read every `index.md` concurrently
(`Promise.all` rejects when a read fails, modelled by `mapExcept`),
project each file to metadata, and sort with the date comparator. -/
def getPosts (s : Store) : Except FsError (List BlogPost) :=
  match mapExcept (readIndexMd s) ((getAllPostSlugs s).map (fun e => e.slug)) with
  | Except.error e => Except.error e
  | Except.ok fileContents =>
    Except.ok (sortCmp postLe
      (List.zipWith postMetaOfFile ((getAllPostSlugs s).map (fun e => e.slug)) fileContents))

/-! ## The markdown tree and `transformImgSrc` -/

mutual

/-- A markdown (mdast) node, as the remark pipeline hands it to plugins:
image and text leaves, paragraph nodes, and any other parent node kind
(root, blockquote, list item, ...) abstracted as `container`. -/
inductive MdNode where
  | text (value : String)
  | image (url : String)
  | paragraph (children : MdNodeList)
  | container (children : MdNodeList)

/-- A list of sibling markdown nodes. -/
inductive MdNodeList where
  | nil
  | cons (head : MdNode) (tail : MdNodeList)

end

/-- The `child.type === 'image'` test of the source's `find` callback. -/
def MdNode.isImage : MdNode → Bool
  | MdNode.image _ => true
  | _ => false

/-- Model of `url.replace('./', '')`: JavaScript `String.replace` with a string
pattern removes the first occurrence of `./`, scanning left to right, and
returns the string unchanged when the pattern does not occur. -/
def jsReplaceDotSlashList : List Char → List Char
  | [] => []
  | '.' :: '/' :: rest => rest
  | c :: rest => c :: jsReplaceDotSlashList rest

/-- String-level wrapper for `url.replace('./', '')`. -/
def jsReplaceDotSlash (s : String) : String :=
  String.mk (jsReplaceDotSlashList s.toList)

/-- The new URL assigned on line 12 of the source:
the template literal `/blogs/<slug>/<fileName>` where `fileName` is
`url.replace('./', '')`. -/
def imgNewUrl (slug url : String) : String :=
  "/blogs/" ++ slug ++ "/" ++ jsReplaceDotSlash url

/-- The body of the paragraph visitor: `children.find` locates the first
image child, and when one exists its `url` is overwritten with
`imgNewUrl`.  All other children, including any further images, are left
untouched. -/
def rewriteFirstImage (slug : String) : MdNodeList → MdNodeList
  | MdNodeList.nil => MdNodeList.nil
  | MdNodeList.cons (MdNode.image url) rest =>
      MdNodeList.cons (MdNode.image (imgNewUrl slug url)) rest
  | MdNodeList.cons n rest => MdNodeList.cons n (rewriteFirstImage slug rest)

mutual

/-- Model of `visit(tree, 'paragraph', cb)` from `transformImgSrc`: walk the whole
tree and apply the first-image rewrite to the children of every paragraph
node.  (`visit` mutates each paragraph before descending; since the rewrite
only changes image leaves, which the traversal never alters, applying it
after transforming the children yields the same tree.) -/
def transformNode (slug : String) : MdNode → MdNode
  | MdNode.text v => MdNode.text v
  | MdNode.image u => MdNode.image u
  | MdNode.paragraph cs =>
      MdNode.paragraph (rewriteFirstImage slug (transformNodes slug cs))
  | MdNode.container cs => MdNode.container (transformNodes slug cs)

/-- Transform every node of a sibling list. -/
def transformNodes (slug : String) : MdNodeList → MdNodeList
  | MdNodeList.nil => MdNodeList.nil
  | MdNodeList.cons n ns =>
      MdNodeList.cons (transformNode slug n) (transformNodes slug ns)

end

/-- The plugin `transformImgSrc({ slug })` as a tree transformation. -/
def transformImgSrc (slug : String) (tree : MdNode) : MdNode :=
  transformNode slug tree

/-- Append on sibling lists (for stating where an image sits among its
siblings). -/
def MdNodeList.append : MdNodeList → MdNodeList → MdNodeList
  | MdNodeList.nil, ys => ys
  | MdNodeList.cons x xs, ys => MdNodeList.cons x (MdNodeList.append xs ys)

/-- No node of the list is an image. -/
def MdNodeList.noImages : MdNodeList → Bool
  | MdNodeList.nil => true
  | MdNodeList.cons n ns => (!n.isImage) && ns.noImages

/-- A URL is relative in the sense of the source's convention exactly when it
starts with the local-path marker `./`. -/
def startsWithDotSlash (s : String) : Bool :=
  match s.toList with
  | '.' :: '/' :: _ => true
  | _ => false

/-- Some node of the list is an image with a `./`-prefixed URL. -/
def MdNodeList.anyRelativeImage : MdNodeList → Bool
  | MdNodeList.nil => false
  | MdNodeList.cons (MdNode.image u) ns => startsWithDotSlash u || ns.anyRelativeImage
  | MdNodeList.cons _ ns => ns.anyRelativeImage

mutual

/-- Some paragraph node of the tree has an image child whose URL is
relative (starts with `./`). -/
def hasRelativeParagraphImage : MdNode → Bool
  | MdNode.text _ => false
  | MdNode.image _ => false
  | MdNode.paragraph cs => cs.anyRelativeImage || hasRelativeParagraphImageList cs
  | MdNode.container cs => hasRelativeParagraphImageList cs

/-- Some node of the sibling list satisfies `hasRelativeParagraphImage`. -/
def hasRelativeParagraphImageList : MdNodeList → Bool
  | MdNodeList.nil => false
  | MdNodeList.cons n ns => hasRelativeParagraphImage n || hasRelativeParagraphImageList ns

end

deriving instance DecidableEq for MdNode, MdNodeList

/-! ## Lemmas about `transformImgSrc` -/

theorem transformNodes_append (slug : String) (xs ys : MdNodeList) :
    transformNodes slug (xs.append ys) =
      (transformNodes slug xs).append (transformNodes slug ys) :=
  match xs with
  | MdNodeList.nil => rfl
  | MdNodeList.cons n ns => by
    rw [MdNodeList.append, transformNodes, transformNodes,
      transformNodes_append slug ns ys, MdNodeList.append]

theorem isImage_transformNode (slug : String) (n : MdNode) :
    (transformNode slug n).isImage = n.isImage := by
  cases n <;> rfl

theorem noImages_transformNodes (slug : String) (xs : MdNodeList) :
    (transformNodes slug xs).noImages = xs.noImages :=
  match xs with
  | MdNodeList.nil => rfl
  | MdNodeList.cons n ns => by
    rw [transformNodes, MdNodeList.noImages, MdNodeList.noImages,
      isImage_transformNode, noImages_transformNodes slug ns]

theorem rewriteFirstImage_append_noImages (slug u : String)
    (pre post : MdNodeList) (hpre : pre.noImages = true) :
    rewriteFirstImage slug (pre.append (MdNodeList.cons (MdNode.image u) post)) =
      pre.append (MdNodeList.cons (MdNode.image (imgNewUrl slug u)) post) :=
  match pre, hpre with
  | MdNodeList.nil, _ => rfl
  | MdNodeList.cons n ns, hpre => by
    have hn : n.isImage = false ∧ ns.noImages = true := by
      rw [MdNodeList.noImages] at hpre
      cases h1 : n.isImage <;> cases h2 : ns.noImages <;>
        rw [h1, h2] at hpre <;> simp_all
    have ih := rewriteFirstImage_append_noImages slug u ns post hn.2
    cases n with
    | text v => exact congrArg (MdNodeList.cons (MdNode.text v)) ih
    | image v => exact absurd hn.1 (by rw [MdNode.isImage]; simp)
    | paragraph cs => exact congrArg (MdNodeList.cons (MdNode.paragraph cs)) ih
    | container cs => exact congrArg (MdNodeList.cons (MdNode.container cs)) ih

/-! ## Sorting lemmas -/

theorem insertCmp_perm (le : α → α → Bool) (x : α) (l : List α) :
    (insertCmp le x l).Perm (x :: l) := by
  induction l with
  | nil => exact List.Perm.refl _
  | cons y ys ih =>
    by_cases h : le y x = true
    · rw [insertCmp, if_pos h]
      exact (ih.cons y).trans (List.Perm.swap x y ys)
    · rw [insertCmp, if_neg h]

theorem sortCmp_perm (le : α → α → Bool) (l : List α) :
    (sortCmp le l).Perm l := by
  induction l with
  | nil => exact List.Perm.refl _
  | cons x xs ih => exact (insertCmp_perm le x (sortCmp le xs)).trans (ih.cons x)

theorem pairwise_insertCmp (le : α → α → Bool) (P : α → Prop)
    (total : ∀ a b, le a b = false → le b a = true)
    (htrans : ∀ a b c, P a → P b → P c →
      le a b = true → le b c = true → le a c = true)
    (x : α) (l : List α) (hx : P x) (hl : ∀ a ∈ l, P a)
    (hp : l.Pairwise (fun a b => le a b = true)) :
    (insertCmp le x l).Pairwise (fun a b => le a b = true) := by
  induction l with
  | nil => simp [insertCmp]
  | cons y ys ih =>
    rcases List.pairwise_cons.mp hp with ⟨hy, hys⟩
    by_cases h : le y x = true
    · rw [insertCmp, if_pos h]
      refine List.pairwise_cons.mpr ⟨?_, ?_⟩
      · intro z hz
        rcases List.mem_cons.mp ((insertCmp_perm le x ys).mem_iff.mp hz) with rfl | hzys
        · exact h
        · exact hy z hzys
      · exact ih (fun a ha => hl a (List.mem_cons_of_mem y ha)) hys
    · rw [insertCmp, if_neg h]
      have hyx : le y x = false := by
        revert h; cases le y x <;> simp
      have hxy : le x y = true := total y x hyx
      refine List.pairwise_cons.mpr ⟨?_, hp⟩
      intro z hz
      rcases List.mem_cons.mp hz with rfl | hzys
      · exact hxy
      · exact htrans x y z hx (hl y (List.mem_cons_self y ys))
          (hl z (List.mem_cons_of_mem y hzys)) hxy (hy z hzys)

theorem pairwise_sortCmp (le : α → α → Bool) (P : α → Prop)
    (total : ∀ a b, le a b = false → le b a = true)
    (htrans : ∀ a b c, P a → P b → P c →
      le a b = true → le b c = true → le a c = true)
    (l : List α) (hl : ∀ a ∈ l, P a) :
    (sortCmp le l).Pairwise (fun a b => le a b = true) := by
  induction l with
  | nil => simp [sortCmp]
  | cons x xs ih =>
    rw [sortCmp]
    refine pairwise_insertCmp le P total htrans x _ (hl x (List.mem_cons_self x xs))
      ?_ (ih fun a ha => hl a (List.mem_cons_of_mem x ha))
    intro a ha
    exact hl a (List.mem_cons_of_mem x ((sortCmp_perm le xs).mem_iff.mp ha))

/-! ## Facts about the date comparator -/

theorem jsNumLt_asymm (p q : Option Int) (h : jsNumLt p q = true) :
    jsNumLt q p = false := by
  cases p <;> cases q <;> simp [jsNumLt] at h ⊢
  omega

theorem postLe_eq_not_jsNumLt (a b : BlogPost) :
    postLe a b = !jsNumLt (dateParse a.date) (dateParse b.date) := by
  unfold postLe postCompare
  cases h : jsNumLt (dateParse a.date) (dateParse b.date) <;> simp [h]

theorem postLe_total (a b : BlogPost) (h : postLe a b = false) :
    postLe b a = true := by
  rw [postLe_eq_not_jsNumLt] at h ⊢
  have hlt : jsNumLt (dateParse a.date) (dateParse b.date) = true := by
    revert h; cases jsNumLt (dateParse a.date) (dateParse b.date) <;> simp
  rw [jsNumLt_asymm _ _ hlt]
  rfl

theorem postLe_trans (a b c : BlogPost)
    (ha : (dateParse a.date).isSome = true)
    (hb : (dateParse b.date).isSome = true)
    (hc : (dateParse c.date).isSome = true)
    (hab : postLe a b = true) (hbc : postLe b c = true) :
    postLe a c = true := by
  rw [postLe_eq_not_jsNumLt] at hab hbc ⊢
  rcases Option.isSome_iff_exists.mp ha with ⟨x, hx⟩
  rcases Option.isSome_iff_exists.mp hb with ⟨y, hy⟩
  rcases Option.isSome_iff_exists.mp hc with ⟨z, hz⟩
  rw [hx, hy] at hab
  rw [hy, hz] at hbc
  rw [hx, hz]
  simp [jsNumLt] at hab hbc ⊢
  omega

/-- Inversion of a successful `getPosts`. -/
theorem getPosts_eq (s : Store) (l : List BlogPost)
    (h : getPosts s = Except.ok l) :
    ∃ cs, mapExcept (readIndexMd s) ((getAllPostSlugs s).map (fun e => e.slug)) =
        Except.ok cs ∧
      l = sortCmp postLe
        (List.zipWith postMetaOfFile ((getAllPostSlugs s).map (fun e => e.slug)) cs) := by
  unfold getPosts at h
  cases hm : mapExcept (readIndexMd s) ((getAllPostSlugs s).map (fun e => e.slug)) with
  | error e => rw [hm] at h; exact absurd h (by simp)
  | ok cs =>
    rw [hm] at h
    exact ⟨cs, rfl, (Except.ok.injEq _ _).mp h.symm⟩

/-- C1: for every content store in which every post's date string parses
(`Date.parse` is not `NaN`), the list returned by `getPosts` is sorted by
parsed date descending: every adjacent pair `(a, b)` satisfies
`Date.parse(a.date) >= Date.parse(b.date)`. -/
theorem getPosts_sorted_by_date_desc (s : Store) (l : List BlogPost)
    (hl : getPosts s = Except.ok l)
    (hd : ∀ p ∈ l, (dateParse p.date).isSome = true) :
    l.Chain' dateGe := by
  obtain ⟨cs, hm, rfl⟩ := getPosts_eq s l hl
  have hmem : ∀ p ∈ List.zipWith postMetaOfFile
      ((getAllPostSlugs s).map (fun e => e.slug)) cs, (dateParse p.date).isSome = true :=
    fun p hp => hd p ((sortCmp_perm postLe _).mem_iff.mpr hp)
  have hpw := pairwise_sortCmp postLe (fun p => (dateParse p.date).isSome = true)
    postLe_total postLe_trans _ hmem
  have hsome : ∀ p ∈ sortCmp postLe (List.zipWith postMetaOfFile
      ((getAllPostSlugs s).map (fun e => e.slug)) cs), (dateParse p.date).isSome = true :=
    fun p hp => hmem p ((sortCmp_perm postLe _).mem_iff.mp hp)
  refine List.Pairwise.chain' (List.Pairwise.imp_of_mem ?_ hpw)
  intro a b ha hb hab
  rcases Option.isSome_iff_exists.mp (hsome a ha) with ⟨x, hx⟩
  rcases Option.isSome_iff_exists.mp (hsome b hb) with ⟨y, hy⟩
  refine ⟨x, y, hx, hy, ?_⟩
  rw [postLe_eq_not_jsNumLt, hx, hy] at hab
  simp [jsNumLt] at hab
  omega

/-- Witness for C1 at a concrete two-post store. -/
theorem getPosts_sorted_by_date_desc_witness :
    List.Chain' dateGe
      [{ slug := "b", title := some "B", spoiler := none, date := some "2024-03-01" },
       { slug := "a", title := some "A", spoiler := none, date := some "2020-01-05" }] :=
  getPosts_sorted_by_date_desc
    { rootEntries := [⟨"a", true⟩, ⟨"b", true⟩]
      files := [("a", "---\ntitle: \"A\"\ndate: \"2020-01-05\"\n---\nbodyA"),
                ("b", "---\ntitle: \"B\"\ndate: \"2024-03-01\"\n---\nbodyB")] }
    _ (by decide) (by decide)

/-- C10: the comparator passed to `posts.sort` never returns `0`, and on a
pair of posts whose dates parse to the same number, or a pair in which either
date parses to `NaN`, it returns `-1` in both argument orders (so it is not a
consistent comparator and the relative order of such posts is
implementation-defined). -/
theorem postCompare_never_zero_and_inconsistent (a b : BlogPost) :
    postCompare a b ≠ 0 ∧
    (∀ x : Int, dateParse a.date = some x → dateParse b.date = some x →
      postCompare a b = -1 ∧ postCompare b a = -1) ∧
    ((dateParse a.date = none ∨ dateParse b.date = none) →
      postCompare a b = -1 ∧ postCompare b a = -1) := by
  refine ⟨?_, ?_, ?_⟩
  · unfold postCompare
    cases jsNumLt (dateParse a.date) (dateParse b.date) <;> simp
  · intro x hx hy
    unfold postCompare
    rw [hx, hy]
    simp [jsNumLt]
  · intro h
    unfold postCompare
    rcases h with h | h <;> rw [h] <;>
      cases dateParse b.date <;> cases dateParse a.date <;> simp [jsNumLt]

/-- Witness for C10: two posts with equal parseable dates compare `-1` in
both orders. -/
theorem postCompare_never_zero_and_inconsistent_witness :
    postCompare
        { slug := "a", title := none, spoiler := none, date := some "2024-01-01" }
        { slug := "b", title := none, spoiler := none, date := some "2024-01-01" } = -1 ∧
      postCompare
        { slug := "b", title := none, spoiler := none, date := some "2024-01-01" }
        { slug := "a", title := none, spoiler := none, date := some "2024-01-01" } = -1 :=
  (postCompare_never_zero_and_inconsistent
    { slug := "a", title := none, spoiler := none, date := some "2024-01-01" }
    { slug := "b", title := none, spoiler := none, date := some "2024-01-01" }).2.1
    20240101 (by decide) (by decide)

/-- C2 counterexample: an image whose URL is absolute (not `./`-prefixed) is
not left unchanged — the transform rewrites it to a `/blogs/<slug>/`-prefixed
URL as well. -/
theorem transformImgSrc_rewrites_absolute_url :
    transformImgSrc "my-post"
        (MdNode.paragraph
          (MdNodeList.cons (MdNode.image "https://example.com/foo.png") MdNodeList.nil)) ≠
      MdNode.paragraph
        (MdNodeList.cons (MdNode.image "https://example.com/foo.png") MdNodeList.nil) ∧
    transformImgSrc "my-post"
        (MdNode.paragraph
          (MdNodeList.cons (MdNode.image "https://example.com/foo.png") MdNodeList.nil)) =
      MdNode.paragraph
        (MdNodeList.cons
          (MdNode.image "/blogs/my-post/https://example.com/foo.png") MdNodeList.nil) := by
  exact ⟨by decide, rfl⟩

/-- C2 amended: the first image child of every paragraph is rewritten
unconditionally, absolute or relative, to `/blogs/<slug>/<url>` where `<url>`
is the original URL with its first `./` occurrence removed; in particular a
relative reference `./foo.png` in a post with slug `my-post` becomes
`/blogs/my-post/foo.png`. -/
theorem transformImgSrc_first_image_rewrite (slug u : String)
    (pre post : MdNodeList) (hpre : pre.noImages = true) :
    transformNode slug
        (MdNode.paragraph (pre.append (MdNodeList.cons (MdNode.image u) post))) =
      MdNode.paragraph
        ((transformNodes slug pre).append
          (MdNodeList.cons (MdNode.image (imgNewUrl slug u))
            (transformNodes slug post))) ∧
    imgNewUrl "my-post" "./foo.png" = "/blogs/my-post/foo.png" := by
  refine ⟨?_, rfl⟩
  rw [transformNode, transformNodes_append]
  rw [show transformNodes slug (MdNodeList.cons (MdNode.image u) post) =
      MdNodeList.cons (MdNode.image u) (transformNodes slug post) from rfl]
  rw [rewriteFirstImage_append_noImages slug u _ _
    (by rw [noImages_transformNodes]; exact hpre)]

/-- Witness for C2 amended: a one-image paragraph with a relative URL. -/
theorem transformImgSrc_first_image_rewrite_witness :
    transformNode "my-post"
        (MdNode.paragraph
          (MdNodeList.nil.append
            (MdNodeList.cons (MdNode.image "./foo.png") MdNodeList.nil))) =
      MdNode.paragraph
        ((transformNodes "my-post" MdNodeList.nil).append
          (MdNodeList.cons (MdNode.image (imgNewUrl "my-post" "./foo.png"))
            (transformNodes "my-post" MdNodeList.nil))) ∧
      imgNewUrl "my-post" "./foo.png" = "/blogs/my-post/foo.png" :=
  transformImgSrc_first_image_rewrite "my-post" "./foo.png"
    MdNodeList.nil MdNodeList.nil (by decide)

/-- C3 counterexample: in a paragraph with two relative images, only the
first is rewritten; the transformed tree still contains a paragraph with a
`./`-prefixed image. -/
theorem transformImgSrc_misses_second_image :
    transformImgSrc "s"
        (MdNode.paragraph
          (MdNodeList.cons (MdNode.image "./a.png")
            (MdNodeList.cons (MdNode.image "./b.png") MdNodeList.nil))) =
      MdNode.paragraph
        (MdNodeList.cons (MdNode.image "/blogs/s/a.png")
          (MdNodeList.cons (MdNode.image "./b.png") MdNodeList.nil)) ∧
    hasRelativeParagraphImage
      (transformImgSrc "s"
        (MdNode.paragraph
          (MdNodeList.cons (MdNode.image "./a.png")
            (MdNodeList.cons (MdNode.image "./b.png") MdNodeList.nil)))) = true := by
  exact ⟨rfl, rfl⟩

/-- C3 amended: the image-URL rewriting stage rewrites only the first image
of each paragraph: any image after the first keeps its URL verbatim. -/
theorem transformImgSrc_rewrites_only_first_image (slug u v : String)
    (pre mid post : MdNodeList) (hpre : pre.noImages = true) :
    transformNode slug
        (MdNode.paragraph
          (pre.append (MdNodeList.cons (MdNode.image u)
            (mid.append (MdNodeList.cons (MdNode.image v) post))))) =
      MdNode.paragraph
        ((transformNodes slug pre).append
          (MdNodeList.cons (MdNode.image (imgNewUrl slug u))
            ((transformNodes slug mid).append
              (MdNodeList.cons (MdNode.image v) (transformNodes slug post))))) := by
  rw [transformNode, transformNodes_append]
  rw [show transformNodes slug (MdNodeList.cons (MdNode.image u)
      (mid.append (MdNodeList.cons (MdNode.image v) post))) =
    MdNodeList.cons (MdNode.image u)
      (transformNodes slug (mid.append (MdNodeList.cons (MdNode.image v) post))) from rfl]
  rw [transformNodes_append]
  rw [show transformNodes slug (MdNodeList.cons (MdNode.image v) post) =
      MdNodeList.cons (MdNode.image v) (transformNodes slug post) from rfl]
  rw [rewriteFirstImage_append_noImages slug u _ _
    (by rw [noImages_transformNodes]; exact hpre)]

/-- Witness for C3 amended: two images in one paragraph, rewritten and
untouched respectively. -/
theorem transformImgSrc_rewrites_only_first_image_witness :
    transformNode "s"
        (MdNode.paragraph
          (MdNodeList.nil.append (MdNodeList.cons (MdNode.image "./a.png")
            (MdNodeList.nil.append
              (MdNodeList.cons (MdNode.image "./b.png") MdNodeList.nil))))) =
      MdNode.paragraph
        ((transformNodes "s" MdNodeList.nil).append
          (MdNodeList.cons (MdNode.image (imgNewUrl "s" "./a.png"))
            ((transformNodes "s" MdNodeList.nil).append
              (MdNodeList.cons (MdNode.image "./b.png")
                (transformNodes "s" MdNodeList.nil))))) :=
  transformImgSrc_rewrites_only_first_image "s" "./a.png" "./b.png"
    MdNodeList.nil MdNodeList.nil MdNodeList.nil (by decide)

/-- C4: for every slug with no corresponding document in the store,
`getPost` fails with the distinguished not-found error (`ENOENT`, modelled as
`FsError.noFileOrDirectory`), not any other storage error. -/
theorem getPost_missing_slug_not_found (s : Store) (slug : String)
    (h : List.lookup slug s.files = none) :
    getPost s slug = Except.error
      (FsError.noFileOrDirectory ("public/blogs/" ++ slug ++ "/index.md")) := by
  unfold getPost readIndexMd
  rw [h]

/-- Witness for C4: an empty store has no document for slug `nope`. -/
theorem getPost_missing_slug_not_found_witness :
    getPost { rootEntries := [], files := [] } "nope" =
      Except.error (FsError.noFileOrDirectory "public/blogs/nope/index.md") :=
  getPost_missing_slug_not_found { rootEntries := [], files := [] } "nope" (by decide)

/-- C7: front-matter written with `title: "T"`, `date: "2024-01-01"`,
`spoiler: "S"` parses back through `getPost` to exactly those three string
values. -/
theorem getPost_front_matter_round_trip :
    getPost
        { rootEntries := [⟨"p", true⟩]
          files :=
            [("p",
              "---\ntitle: \"T\"\ndate: \"2024-01-01\"\nspoiler: \"S\"\n---\nHello world")] }
        "p" =
      Except.ok
        { slug := "p", content := "Hello world", title := some "T",
          spoiler := some "S", date := some "2024-01-01" } := by
  decide

/-- C5 counterexample: a post whose document is a front-matter block with no
body is listed by `getPosts`, but `getPost` returns an empty content body,
refuting the claimed non-emptiness. -/
theorem getPost_content_can_be_empty :
    getPosts
        { rootEntries := [⟨"p", true⟩], files := [("p", "---\ntitle: \"T\"\n---")] } =
      Except.ok [{ slug := "p", title := some "T", spoiler := none, date := none }] ∧
    getPost
        { rootEntries := [⟨"p", true⟩], files := [("p", "---\ntitle: \"T\"\n---")] }
        "p" =
      Except.ok
        { slug := "p", content := "", title := some "T", spoiler := none,
          date := none } := by
  exact ⟨by decide, by decide⟩

/-! ## Lemmas relating `getPost` and `getPosts` -/

theorem mapExcept_ok_forall₂ (f : α → Except ε β) (l : List α) :
    ∀ cs, mapExcept f l = Except.ok cs →
      List.Forall₂ (fun a c => f a = Except.ok c) l cs := by
  induction l with
  | nil =>
    intro cs h
    rw [mapExcept] at h
    cases h
    exact List.Forall₂.nil
  | cons a as ih =>
    intro cs h
    rw [mapExcept] at h
    cases hfa : f a with
    | error e => rw [hfa] at h; exact absurd h (by simp)
    | ok b =>
      rw [hfa] at h
      cases hml : mapExcept f as with
      | error e => rw [hml] at h; exact absurd h (by simp)
      | ok bs =>
        rw [hml] at h
        cases h
        exact List.forall₂_cons.mpr ⟨hfa, ih bs hml⟩

theorem mapExcept_ok_of_forall (f : α → Except ε β) (l : List α)
    (h : ∀ a ∈ l, ∃ c, f a = Except.ok c) :
    ∃ cs, mapExcept f l = Except.ok cs := by
  induction l with
  | nil => exact ⟨[], rfl⟩
  | cons a as ih =>
    obtain ⟨b, hb⟩ := h a (List.mem_cons_self a as)
    obtain ⟨bs, hbs⟩ := ih fun x hx => h x (List.mem_cons_of_mem a hx)
    refine ⟨b :: bs, ?_⟩
    rw [mapExcept, hb, hbs]

theorem zipWith_postMeta_map_slug (names cs : List String)
    (hlen : names.length = cs.length) :
    (List.zipWith postMetaOfFile names cs).map (fun p => p.slug) = names := by
  induction names generalizing cs with
  | nil => rfl
  | cons n ns ih =>
    cases cs with
    | nil => cases hlen
    | cons c cs' =>
      rw [List.zipWith_cons_cons, List.map_cons, ih cs' (by simpa using hlen)]
      rfl

theorem zipWith_postMeta_mem (s : Store) {names cs : List String}
    (hf : List.Forall₂ (fun n c => readIndexMd s n = Except.ok c) names cs)
    (slug c₀ : String) (hmem : slug ∈ names)
    (hc₀ : readIndexMd s slug = Except.ok c₀) :
    postMetaOfFile slug c₀ ∈ List.zipWith postMetaOfFile names cs := by
  induction hf with
  | nil => cases hmem
  | @cons a b l₁ l₂ h₁ h₂ ih =>
    rw [List.zipWith_cons_cons]
    rcases List.mem_cons.mp hmem with rfl | hmem'
    · have hb : c₀ = b := by
        rw [hc₀] at h₁
        exact (Except.ok.injEq _ _).mp h₁
      rw [hb]
      exact List.mem_cons_self _ _
    · exact List.mem_cons_of_mem _ (ih hmem')

theorem zipWith_postMeta_unique (s : Store) {names cs : List String}
    (hf : List.Forall₂ (fun n c => readIndexMd s n = Except.ok c) names cs)
    (slug c₀ : String) (hc₀ : readIndexMd s slug = Except.ok c₀)
    (q : BlogPost) (hq : q ∈ List.zipWith postMetaOfFile names cs)
    (hslug : q.slug = slug) : q = postMetaOfFile slug c₀ := by
  induction hf with
  | nil => cases hq
  | @cons a b l₁ l₂ h₁ h₂ ih =>
    rw [List.zipWith_cons_cons] at hq
    rcases List.mem_cons.mp hq with rfl | hq'
    · have ha : a = slug := hslug
      subst ha
      have hb : b = c₀ := by
        rw [hc₀] at h₁
        exact ((Except.ok.injEq _ _).mp h₁).symm
      rw [hb]
    · exact ih hq'

/-- C5 amended: for every slug listed by the content root, a successful
`getPost` and a successful `getPosts` agree: the metadata projection of the
`getPost` record appears in the `getPosts` list, every listed entry carrying
that slug equals it, and the content body is the document with the
front-matter block stripped (which may be empty). -/
theorem getPost_matches_getPosts_entry (s : Store) (slug : String)
    (p : BlogPostWithContent) (l : List BlogPost)
    (hp : getPost s slug = Except.ok p) (hl : getPosts s = Except.ok l)
    (hmem : slug ∈ (getAllPostSlugs s).map (fun e => e.slug)) :
    p.toMeta ∈ l ∧ (∀ q ∈ l, q.slug = slug → q = p.toMeta) ∧
      ∃ c, readIndexMd s slug = Except.ok c ∧ p.content = (matter c).content := by
  obtain ⟨cs, hm, rfl⟩ := getPosts_eq s l hl
  have hf := mapExcept_ok_forall₂ (readIndexMd s) _ cs hm
  unfold getPost at hp
  cases hr : readIndexMd s slug with
  | error e => rw [hr] at hp; exact absurd hp (by simp)
  | ok c₀ =>
    rw [hr] at hp
    have hpval : p = ⟨slug, (matter c₀).content,
        (matter c₀).data.lookup "title", (matter c₀).data.lookup "spoiler",
        (matter c₀).data.lookup "date"⟩ :=
      ((Except.ok.injEq _ _).mp hp).symm
    have hmeta : p.toMeta = postMetaOfFile slug c₀ := by
      rw [hpval]; rfl
    refine ⟨?_, ?_, c₀, rfl, by rw [hpval]⟩
    · rw [hmeta]
      exact (sortCmp_perm postLe _).mem_iff.mpr
        (zipWith_postMeta_mem s hf slug c₀ hmem hr)
    · intro q hq hqslug
      rw [hmeta]
      exact zipWith_postMeta_unique s hf slug c₀ hr q
        ((sortCmp_perm postLe _).mem_iff.mp hq) hqslug

/-- Witness for C5 amended at a concrete two-post store. -/
theorem getPost_matches_getPosts_entry_witness :
    (⟨"a", "bodyA", some "A", none, some "2020-01-05"⟩ : BlogPostWithContent).toMeta ∈
      [(⟨"b", some "B", none, some "2024-03-01"⟩ : BlogPost),
       ⟨"a", some "A", none, some "2020-01-05"⟩] ∧
    (∀ q ∈ [(⟨"b", some "B", none, some "2024-03-01"⟩ : BlogPost),
            ⟨"a", some "A", none, some "2020-01-05"⟩],
      q.slug = "a" →
        q = (⟨"a", "bodyA", some "A", none,
          some "2020-01-05"⟩ : BlogPostWithContent).toMeta) ∧
    ∃ c, readIndexMd
        ⟨[⟨"a", true⟩, ⟨"b", true⟩],
         [("a", "---\ntitle: \"A\"\ndate: \"2020-01-05\"\n---\nbodyA"),
          ("b", "---\ntitle: \"B\"\ndate: \"2024-03-01\"\n---\nbodyB")]⟩
        "a" = Except.ok c ∧
      (⟨"a", "bodyA", some "A", none,
        some "2020-01-05"⟩ : BlogPostWithContent).content = (matter c).content :=
  getPost_matches_getPosts_entry
    ⟨[⟨"a", true⟩, ⟨"b", true⟩],
     [("a", "---\ntitle: \"A\"\ndate: \"2020-01-05\"\n---\nbodyA"),
      ("b", "---\ntitle: \"B\"\ndate: \"2024-03-01\"\n---\nbodyB")]⟩
    "a" _ _ (by decide) (by decide) (by decide)

/-- The slugs of the content root are exactly the names of its directory
entries that are directories. -/
theorem getAllPostSlugs_map_slug (s : Store) :
    (getAllPostSlugs s).map (fun e => e.slug) =
      (s.rootEntries.filter fun e => e.isDirectory).map (fun e => e.name) := by
  rw [getAllPostSlugs, List.map_map]
  rfl

/-- C6: for a content root whose subdirectories each hold a readable
`index.md` and (as the file system guarantees) have non-empty names,
`getPosts` returns exactly one metadata entry per immediate subdirectory —
the multiset of returned slugs equals the multiset of subdirectory names,
files and non-directory entries contributing nothing — and every returned
slug is non-empty. -/
theorem getPosts_one_entry_per_subdirectory (s : Store)
    (hread : ∀ e ∈ s.rootEntries, e.isDirectory = true →
      (readIndexMd s e.name).isOk = true)
    (hne : ∀ e ∈ s.rootEntries, e.name ≠ "") :
    ∃ l, getPosts s = Except.ok l ∧
      (l.map (fun p => p.slug)).Perm
        ((s.rootEntries.filter fun e => e.isDirectory).map (fun e => e.name)) ∧
      ∀ q ∈ l, q.slug ≠ "" := by
  have hnames : ∀ n ∈ (getAllPostSlugs s).map (fun e => e.slug),
      ∃ c, readIndexMd s n = Except.ok c := by
    intro n hn
    rw [getAllPostSlugs_map_slug] at hn
    obtain ⟨e, he, rfl⟩ := List.mem_map.mp hn
    have hok := hread e (List.mem_of_mem_filter he)
      (by simpa using List.of_mem_filter he)
    cases hx : readIndexMd s e.name with
    | error err =>
      rw [hx] at hok
      exact absurd hok (by simp [Except.isOk, Except.toBool])
    | ok c => exact ⟨c, rfl⟩
  obtain ⟨cs, hcs⟩ := mapExcept_ok_of_forall _ _ hnames
  have hlen := (mapExcept_ok_forall₂ _ _ cs hcs).length_eq
  refine ⟨sortCmp postLe
      (List.zipWith postMetaOfFile ((getAllPostSlugs s).map (fun e => e.slug)) cs),
    ?_, ?_, ?_⟩
  · unfold getPosts
    rw [hcs]
  · have hperm := (sortCmp_perm postLe
      (List.zipWith postMetaOfFile ((getAllPostSlugs s).map (fun e => e.slug)) cs)).map
      (fun p => p.slug)
    rw [zipWith_postMeta_map_slug _ _ hlen] at hperm
    rw [← getAllPostSlugs_map_slug]
    exact hperm
  · intro q hq
    have hq' : q.slug ∈ (List.zipWith postMetaOfFile
        ((getAllPostSlugs s).map (fun e => e.slug)) cs).map (fun p => p.slug) :=
      List.mem_map_of_mem _ ((sortCmp_perm postLe _).mem_iff.mp hq)
    rw [zipWith_postMeta_map_slug _ _ hlen, getAllPostSlugs_map_slug] at hq'
    obtain ⟨e, he, hname⟩ := List.mem_map.mp hq'
    rw [← hname]
    exact hne e (List.mem_of_mem_filter he)

/-- Witness for C6 at a concrete store with a file entry to be excluded. -/
theorem getPosts_one_entry_per_subdirectory_witness :
    ∃ l, getPosts
        ⟨[⟨"a", true⟩, ⟨"b", true⟩, ⟨"note.txt", false⟩],
         [("a", "---\ntitle: \"A\"\ndate: \"2020-01-05\"\n---\nbodyA"),
          ("b", "---\ntitle: \"B\"\ndate: \"2024-03-01\"\n---\nbodyB")]⟩ =
        Except.ok l ∧
      (l.map (fun p => p.slug)).Perm
        ((([⟨"a", true⟩, ⟨"b", true⟩, ⟨"note.txt", false⟩] : List DirEntry).filter
            fun e => e.isDirectory).map (fun e => e.name)) ∧
      ∀ q ∈ l, q.slug ≠ "" :=
  getPosts_one_entry_per_subdirectory
    ⟨[⟨"a", true⟩, ⟨"b", true⟩, ⟨"note.txt", false⟩],
     [("a", "---\ntitle: \"A\"\ndate: \"2020-01-05\"\n---\nbodyA"),
      ("b", "---\ntitle: \"B\"\ndate: \"2024-03-01\"\n---\nbodyB")]⟩
    (by decide) (by decide)

/-! ## Round-trip lemmas for line splitting and front-matter extraction -/

theorem splitLinesList_ne_nil (cs : List Char) : splitLinesList cs ≠ [] := by
  cases cs with
  | nil => simp [splitLinesList]
  | cons c cs' =>
    rw [splitLinesList]
    by_cases h : c = '\n'
    · rw [if_pos h]; simp
    · rw [if_neg h]
      cases splitLinesList cs' <;> simp

theorem splitLinesList_sep (l : List Char) (h : '\n' ∉ l) (rest : List Char) :
    splitLinesList (l ++ '\n' :: rest) = l :: splitLinesList rest := by
  induction l with
  | nil =>
    rw [List.nil_append, splitLinesList, if_pos rfl]
  | cons c cs ih =>
    have hc : ¬ c = '\n' := fun hh => h (hh ▸ List.mem_cons_self c cs)
    rw [List.cons_append, splitLinesList, if_neg hc,
      ih fun hm => h (List.mem_cons_of_mem c hm)]

theorem joinLinesList_splitLinesList (cs : List Char) :
    joinLinesList (splitLinesList cs) = cs := by
  induction cs with
  | nil => rfl
  | cons c cs' ih =>
    rw [splitLinesList]
    by_cases h : c = '\n'
    · rw [if_pos h, h]
      cases hs : splitLinesList cs' with
      | nil => exact absurd hs (splitLinesList_ne_nil cs')
      | cons l ls =>
        rw [hs] at ih
        rw [joinLinesList, List.nil_append, ih]
    · rw [if_neg h]
      cases hs : splitLinesList cs' with
      | nil => exact absurd hs (splitLinesList_ne_nil cs')
      | cons l ls =>
        rw [hs] at ih
        cases ls with
        | nil =>
          rw [joinLinesList] at ih
          rw [joinLinesList, ih]
        | cons l₂ ls₂ =>
          rw [joinLinesList] at ih
          rw [joinLinesList, List.cons_append, ih]

theorem string_toList_append (s t : String) :
    (s ++ t).toList = s.toList ++ t.toList := by
  cases s
  cases t
  rfl

theorem string_mk_toList (s : String) : String.mk s.toList = s := by
  cases s
  rfl

theorem string_eq_of_toList (s t : String) (h : s.toList = t.toList) : s = t := by
  cases s
  cases t
  cases h
  rfl

theorem splitLines_sep (l : String) (rest : String) (h : '\n' ∉ l.toList) :
    splitLines (l ++ "\n" ++ rest) = l :: splitLines rest := by
  unfold splitLines
  have : (l ++ "\n" ++ rest).toList = l.toList ++ '\n' :: rest.toList := by
    rw [string_toList_append, string_toList_append, List.append_assoc]
    rfl
  rw [this, splitLinesList_sep l.toList h rest.toList, List.map_cons, string_mk_toList]

theorem joinLines_splitLines (s : String) : joinLines (splitLines s) = s := by
  unfold joinLines splitLines
  rw [List.map_map]
  have hid : (String.toList ∘ String.mk) = id := funext fun l => rfl
  rw [hid, List.map_id, joinLinesList_splitLinesList, string_mk_toList]

theorem joinLines_singleton (l : String) : joinLines [l] = l := by
  unfold joinLines
  rw [List.map_cons, List.map_nil, joinLinesList, string_mk_toList]

theorem joinLines_cons₂ (l l₂ : String) (ls : List String) :
    joinLines (l :: l₂ :: ls) = l ++ "\n" ++ joinLines (l₂ :: ls) := by
  unfold joinLines
  rw [List.map_cons, List.map_cons, joinLinesList]
  apply string_eq_of_toList
  rw [string_toList_append, string_toList_append, List.append_assoc]
  rfl

theorem splitLines_join_block (ls : List String) (rest : String)
    (hne : ls ≠ []) (h : ∀ l ∈ ls, '\n' ∉ l.toList) :
    splitLines (joinLines ls ++ "\n" ++ rest) = ls ++ splitLines rest := by
  induction ls with
  | nil => exact absurd rfl hne
  | cons l ls' ih =>
    cases ls' with
    | nil =>
      rw [joinLines_singleton, splitLines_sep l rest (h l (List.mem_cons_self l []))]
      rfl
    | cons l₂ ls₂ =>
      rw [joinLines_cons₂, String.append_assoc, String.append_assoc,
        splitLines_sep l _ (h l (List.mem_cons_self l (l₂ :: ls₂))),
        ← String.append_assoc,
        ih (by simp) (fun x hx => h x (List.mem_cons_of_mem l hx))]
      rfl

theorem splitAtCloseDelim_append (fm : List String) (rest : List String)
    (h : ∀ l ∈ fm, l ≠ "---") :
    splitAtCloseDelim (fm ++ "---" :: rest) = some (fm, rest) := by
  induction fm with
  | nil =>
    rw [List.nil_append, splitAtCloseDelim, if_pos rfl]
  | cons l fm' ih =>
    rw [List.cons_append, splitAtCloseDelim,
      if_neg (h l (List.mem_cons_self l fm')),
      ih fun x hx => h x (List.mem_cons_of_mem l hx)]

theorem matter_mkDoc (fmLines : List String) (body : String)
    (hwf : ∀ l ∈ fmLines, lineWf l) :
    matter (mkDoc fmLines body) =
      { data := fmLines.filterMap parseYamlLine, content := body } := by
  have hsplit : splitLines (mkDoc fmLines body) =
      "---" :: (fmLines ++ "---" :: splitLines body) := by
    unfold mkDoc
    rw [splitLines_join_block ("---" :: fmLines ++ ["---"]) body (by simp)
      (by
        intro x hx
        rcases List.mem_cons.mp hx with rfl | hx'
        · decide
        · rcases List.mem_append.mp hx' with hx'' | hx''
          · exact (hwf x hx'').1
          · rw [List.mem_singleton.mp hx'']; decide)]
    simp
  unfold matter
  rw [hsplit]
  show (if ("---" : String) = "---" then
      matterClose (mkDoc fmLines body) (fmLines ++ "---" :: splitLines body)
    else { data := [], content := mkDoc fmLines body }) =
    { data := fmLines.filterMap parseYamlLine, content := body }
  rw [if_pos rfl]
  unfold matterClose
  rw [splitAtCloseDelim_append fmLines (splitLines body)
    fun l hl => (hwf l hl).2]
  show (⟨fmLines.filterMap parseYamlLine,
      joinLines (splitLines body)⟩ : GrayMatterFile) =
    { data := fmLines.filterMap parseYamlLine, content := body }
  rw [joinLines_splitLines]

/-! ## Lookup lemmas and the noninterference of unrecognized keys -/

theorem lookup_eq_none_of (k : String) (B : List (String × String))
    (h : ∀ kv ∈ B, kv.1 ≠ k) : List.lookup k B = none := by
  induction B with
  | nil => rfl
  | cons p tl ih =>
    obtain ⟨a, b⟩ := p
    have hne : (k == a) = false := beq_eq_false_iff_ne.mpr
      fun hh => h (a, b) (List.mem_cons_self _ _) hh.symm
    rw [List.lookup_cons, hne]
    exact ih fun kv hkv => h kv (List.mem_cons_of_mem _ hkv)

theorem lookup_append_right_none (k : String) (A B : List (String × String))
    (hB : List.lookup k B = none) : List.lookup k (A ++ B) = List.lookup k A := by
  induction A with
  | nil =>
    rw [List.nil_append, hB]
    rfl
  | cons p tl ih =>
    obtain ⟨a, b⟩ := p
    rw [List.cons_append, List.lookup_cons, List.lookup_cons]
    cases hb : (k == a) with
    | true => rfl
    | false => exact ih

/-- Evaluation of `getPost` on a successfully read document, spelled out. -/
theorem getPost_of_read (s : Store) (slug d : String)
    (h : readIndexMd s slug = Except.ok d) :
    getPost s slug = Except.ok ⟨slug, (matter d).content,
      (matter d).data.lookup "title", (matter d).data.lookup "spoiler",
      (matter d).data.lookup "date"⟩ := by
  unfold getPost
  rw [h]

/-- C8: two documents whose front-matter blocks share the same recognised
lines and whose bodies are equal, but which differ in additional
front-matter lines carrying only unrecognized keys (none of `title`, `date`,
`spoiler`), produce identical `getPost` records: unrecognized keys do not
interfere with the result. -/
theorem getPost_ignores_unrecognized_keys
    (s₁ s₂ : Store) (slug : String) (common extra₁ extra₂ : List String)
    (body : String)
    (hwf : ∀ l ∈ common ++ extra₁ ++ extra₂, lineWf l)
    (hx₁ : ∀ l ∈ extra₁, ∀ kv : String × String, parseYamlLine l = some kv →
      kv.1 ≠ "title" ∧ kv.1 ≠ "date" ∧ kv.1 ≠ "spoiler")
    (hx₂ : ∀ l ∈ extra₂, ∀ kv : String × String, parseYamlLine l = some kv →
      kv.1 ≠ "title" ∧ kv.1 ≠ "date" ∧ kv.1 ≠ "spoiler")
    (h₁ : readIndexMd s₁ slug = Except.ok (mkDoc (common ++ extra₁) body))
    (h₂ : readIndexMd s₂ slug = Except.ok (mkDoc (common ++ extra₂) body)) :
    getPost s₁ slug = getPost s₂ slug := by
  have hw₁ : ∀ l ∈ common ++ extra₁, lineWf l := by
    intro l hl
    rcases List.mem_append.mp hl with hc | hx
    · exact hwf l (List.mem_append_left _ (List.mem_append_left _ hc))
    · exact hwf l (List.mem_append_left _ (List.mem_append_right _ hx))
  have hw₂ : ∀ l ∈ common ++ extra₂, lineWf l := by
    intro l hl
    rcases List.mem_append.mp hl with hc | hx
    · exact hwf l (List.mem_append_left _ (List.mem_append_left _ hc))
    · exact hwf l (List.mem_append_right _ hx)
  have none₁ : ∀ k : String, (k = "title" ∨ k = "date" ∨ k = "spoiler") →
      List.lookup k (extra₁.filterMap parseYamlLine) = none := by
    intro k hk
    refine lookup_eq_none_of k _ fun kv hkv => ?_
    obtain ⟨l, hl, hpl⟩ := List.mem_filterMap.mp hkv
    rcases hk with rfl | rfl | rfl
    · exact (hx₁ l hl kv hpl).1
    · exact (hx₁ l hl kv hpl).2.1
    · exact (hx₁ l hl kv hpl).2.2
  have none₂ : ∀ k : String, (k = "title" ∨ k = "date" ∨ k = "spoiler") →
      List.lookup k (extra₂.filterMap parseYamlLine) = none := by
    intro k hk
    refine lookup_eq_none_of k _ fun kv hkv => ?_
    obtain ⟨l, hl, hpl⟩ := List.mem_filterMap.mp hkv
    rcases hk with rfl | rfl | rfl
    · exact (hx₂ l hl kv hpl).1
    · exact (hx₂ l hl kv hpl).2.1
    · exact (hx₂ l hl kv hpl).2.2
  rw [getPost_of_read s₁ slug _ h₁, getPost_of_read s₂ slug _ h₂,
    matter_mkDoc _ _ hw₁, matter_mkDoc _ _ hw₂]
  simp only [List.filterMap_append]
  rw [lookup_append_right_none "title" _ _ (none₁ "title" (Or.inl rfl)),
    lookup_append_right_none "spoiler" _ _ (none₁ "spoiler" (Or.inr (Or.inr rfl))),
    lookup_append_right_none "date" _ _ (none₁ "date" (Or.inr (Or.inl rfl))),
    lookup_append_right_none "title" _ _ (none₂ "title" (Or.inl rfl)),
    lookup_append_right_none "spoiler" _ _ (none₂ "spoiler" (Or.inr (Or.inr rfl))),
    lookup_append_right_none "date" _ _ (none₂ "date" (Or.inr (Or.inl rfl)))]

/-- Witness for C8: same `title` line and body, one extra `draft` key on one
side and extra `author`/`layout` keys on the other. -/
theorem getPost_ignores_unrecognized_keys_witness :
    getPost ⟨[⟨"p", true⟩],
        [("p", mkDoc ["title: \"T\"", "draft: x"] "B")]⟩ "p" =
      getPost ⟨[⟨"p", true⟩],
        [("p", mkDoc ["title: \"T\"", "author: y", "layout: z"] "B")]⟩ "p" :=
  getPost_ignores_unrecognized_keys
    ⟨[⟨"p", true⟩], [("p", mkDoc ["title: \"T\"", "draft: x"] "B")]⟩
    ⟨[⟨"p", true⟩], [("p", mkDoc ["title: \"T\"", "author: y", "layout: z"] "B")]⟩
    "p" ["title: \"T\""] ["draft: x"] ["author: y", "layout: z"] "B"
    (by decide)
    (by
      intro l hl kv hkv
      rw [List.mem_singleton.mp hl] at hkv
      rw [show parseYamlLine "draft: x" = some ("draft", "x") from by decide] at hkv
      cases hkv
      exact ⟨by decide, by decide, by decide⟩)
    (by
      intro l hl kv hkv
      rcases List.mem_cons.mp hl with rfl | hl'
      · rw [show parseYamlLine "author: y" = some ("author", "y") from by decide] at hkv
        cases hkv
        exact ⟨by decide, by decide, by decide⟩
      · rw [List.mem_singleton.mp hl'] at hkv
        rw [show parseYamlLine "layout: z" = some ("layout", "z") from by decide] at hkv
        cases hkv
        exact ⟨by decide, by decide, by decide⟩)
    (by decide) (by decide)

/-- C9: a document whose front-matter block is present but lacks some of the
keys `title`, `date`, `spoiler` does not make `getPost` fail: the record is
returned with each missing key's field absent (`none`) and the body as
content. -/
theorem getPost_missing_keys_best_effort (s : Store) (slug : String)
    (fmLines : List String) (body : String)
    (hwf : ∀ l ∈ fmLines, lineWf l)
    (hread : readIndexMd s slug = Except.ok (mkDoc fmLines body)) :
    ∃ p, getPost s slug = Except.ok p ∧ p.content = body ∧
      ("title" ∉ (fmLines.filterMap parseYamlLine).map Prod.fst →
        p.title = none) ∧
      ("date" ∉ (fmLines.filterMap parseYamlLine).map Prod.fst →
        p.date = none) ∧
      ("spoiler" ∉ (fmLines.filterMap parseYamlLine).map Prod.fst →
        p.spoiler = none) := by
  refine ⟨_, getPost_of_read s slug _ hread, ?_, ?_, ?_, ?_⟩
  · show (matter (mkDoc fmLines body)).content = body
    rw [matter_mkDoc _ _ hwf]
  · intro hmk
    show (matter (mkDoc fmLines body)).data.lookup "title" = none
    rw [matter_mkDoc _ _ hwf]
    exact lookup_eq_none_of _ _
      fun kv hkv heq => hmk (heq ▸ List.mem_map_of_mem Prod.fst hkv)
  · intro hmk
    show (matter (mkDoc fmLines body)).data.lookup "date" = none
    rw [matter_mkDoc _ _ hwf]
    exact lookup_eq_none_of _ _
      fun kv hkv heq => hmk (heq ▸ List.mem_map_of_mem Prod.fst hkv)
  · intro hmk
    show (matter (mkDoc fmLines body)).data.lookup "spoiler" = none
    rw [matter_mkDoc _ _ hwf]
    exact lookup_eq_none_of _ _
      fun kv hkv heq => hmk (heq ▸ List.mem_map_of_mem Prod.fst hkv)

/-- Witness for C9: a document with only a `title` key; `date` and `spoiler`
come back absent. -/
theorem getPost_missing_keys_best_effort_witness :
    ∃ p, getPost ⟨[⟨"p", true⟩],
          [("p", mkDoc ["title: \"T\""] "B")]⟩ "p" = Except.ok p ∧
      p.content = "B" ∧
      ("title" ∉ ((["title: \"T\""].filterMap parseYamlLine).map Prod.fst) →
        p.title = none) ∧
      ("date" ∉ ((["title: \"T\""].filterMap parseYamlLine).map Prod.fst) →
        p.date = none) ∧
      ("spoiler" ∉ ((["title: \"T\""].filterMap parseYamlLine).map Prod.fst) →
        p.spoiler = none) :=
  getPost_missing_keys_best_effort
    ⟨[⟨"p", true⟩], [("p", mkDoc ["title: \"T\""] "B")]⟩ "p"
    ["title: \"T\""] "B" (by decide) (by decide)
